import Mathlib

/-!
ericlagergren/decimal : `benchmarks/_testdata/c_double.c` and `math/sin.C`

A shallow embedding of the two numeric kernels of the repository and of the
benchmark driver around the first one.

* `Double` is IEEE-754 binary64 with round-to-nearest, ties-to-even: the
  arithmetic the C type `double` has on the usual targets (SSE2, AArch64).
* `Arith` packages the operations the C code applies to `double`s, so that one
  transcription of `calcPifloat` can be read both in binary64 (`binary64`) and
  in exact rational arithmetic (`exact`).
* `cosine_fraction` and `cosine` are templates over a numeric type `T` in the
  source; here `T` is any linearly ordered field (exact arithmetic).
-/

/-! ## The arithmetic of `double` -/

/-- IEEE-754 binary64 values. A finite value is a sign (`true` is negative)
and a magnitude counted in units of `2^-1074`, the smallest subnormal; so `1.0`
is `fin false (2^1074)`. Every finite binary64 magnitude is such a natural
number: one below `2^53` (subnormals and the first binade) or `k * 2^e` with
`k < 2^53`, below `2^2098`. -/
inductive Double where
  | fin (neg : Bool) (mag : Nat)
  | inf (neg : Bool)
  | nan
deriving DecidableEq, Repr

namespace Double

/-- Number of binary digits of `n` for `n < 2^(2^k)`, by bisection. -/
def bitLengthAux : Nat → Nat → Nat
  | 0, n => if n = 0 then 0 else 1
  | k + 1, n =>
    if n < 2 ^ 2 ^ k then bitLengthAux k n
    else 2 ^ k + bitLengthAux k (n / 2 ^ 2 ^ k)

/-- Number of binary digits of `n` (`0` for `n = 0`). -/
def bitLength (n : Nat) : Nat :=
  if n < 2 ^ 4096 then bitLengthAux 12 n else Nat.log2 n + 1

/-- Round the non-negative rational `num / den` (in units of `2^-1074`,
`den ≠ 0`) to the nearest binary64 magnitude, ties to the even significand,
and attach the sign. The spacing of binary64 numbers around a value with
`L` binary digits is `2^(L - 53)` units (one unit when `L ≤ 53`); a rounded
magnitude of `2^2098` units, that is `2^1024`, or more overflows to infinity. -/
def round (neg : Bool) (num den : Nat) : Double :=
  let u := 2 ^ (bitLength (num / den) - 53)
  let k := num / (den * u)
  let r := num % (den * u)
  let k' := if 2 * r < den * u then k
            else if den * u < 2 * r then k + 1
            else if k % 2 = 0 then k else k + 1
  if k' * u < 2 ^ 2098 then fin neg (k' * u) else inf neg

/-- Conversion of an integer to `double`: the cast `(double) i`, and the
value of a literal such as `3.0` or `8`. -/
def ofInt (i : Int) : Double := round (decide (i < 0)) (i.natAbs * 2 ^ 1074) 1

/-- The operation `x + y` on doubles. -/
def add : Double → Double → Double
  | nan, _ => nan
  | _, nan => nan
  | inf a, inf b => if a = b then inf a else nan
  | inf a, fin _ _ => inf a
  | fin _ _, inf b => inf b
  | fin a x, fin b y =>
    if a = b then round a (x + y) 1
    else if y < x then round a (x - y) 1
    else if x < y then round b (y - x) 1
    else fin false 0

/-- The operation `x * y` on doubles. -/
def mul : Double → Double → Double
  | nan, _ => nan
  | _, nan => nan
  | inf a, inf b => inf (xor a b)
  | inf a, fin b y => if y = 0 then nan else inf (xor a b)
  | fin a x, inf b => if x = 0 then nan else inf (xor a b)
  | fin a x, fin b y => round (xor a b) (x * y) (2 ^ 1074)

/-- The operation `x / y` on doubles; dividing by zero does not trap, it
gives an infinity or a NaN. -/
def div : Double → Double → Double
  | nan, _ => nan
  | _, nan => nan
  | inf _, inf _ => nan
  | inf a, fin b _ => inf (xor a b)
  | fin a _, inf b => fin (xor a b) 0
  | fin a x, fin b y =>
    if y = 0 then (if x = 0 then nan else inf (xor a b))
    else round (xor a b) (x * 2 ^ 1074) y

/-- The comparison `x != y` on doubles: the two zeros compare equal, a NaN
differs from everything. -/
def ne : Double → Double → Bool
  | fin a x, fin b y => !(x == y && (a == b || x == 0))
  | inf a, inf b => a != b
  | _, _ => true

/-- The comparison `x < y` on doubles. -/
def lt : Double → Double → Bool
  | fin a x, fin b y =>
    if a then (if b then decide (y < x) else !(x == 0 && y == 0))
    else (if b then false else decide (x < y))
  | inf a, inf b => a && !b
  | inf a, fin _ _ => a
  | fin _ _, inf b => !b
  | _, _ => false

/-- The rational number a finite double stands for. -/
def toRat : Double → Option ℚ
  | fin neg mag => some ((if neg then -1 else 1) * (mag : ℚ) / 2 ^ 1074)
  | _ => none

end Double

/-- The operations the C code applies to values of type `double`. -/
structure Arith (α : Type) where
  ofInt : Int → α
  add : α → α → α
  mul : α → α → α
  div : α → α → α
  ne : α → α → Bool

/-- The type `double` read as IEEE-754 binary64. -/
def binary64 : Arith Double :=
  ⟨Double.ofInt, Double.add, Double.mul, Double.div, Double.ne⟩

/-- The type `double` read as the rational numbers, without rounding. -/
def exact : Arith ℚ :=
  ⟨fun i => (i : ℚ), fun x y => x + y, fun x y => x * y, fun x y => x / y,
   fun x y => decide (x ≠ y)⟩

/-! ## `benchmarks/_testdata/c_double.c` -/

namespace CDouble

/-- The global variables of `c_double.c`: the single `double gd`. -/
structure Globals (α : Type) where
  gd : α
deriving DecidableEq, Repr

/-- The local variables of `calcPifloat`. -/
structure PiState (α : Type) where
  lasts : α
  t : α
  s : α
  n : α
  na : α
  d : α
  da : α
deriving DecidableEq, Repr

/-- The initialisers of `calcPifloat` (lines 27-33). -/
def PiState.init (A : Arith α) : PiState α :=
  ⟨A.ofInt 0, A.ofInt 3, A.ofInt 3, A.ofInt 1, A.ofInt 0, A.ofInt 0, A.ofInt 24⟩

/-- The loop test `s != lasts` (line 34). -/
def PiState.test (A : Arith α) (st : PiState α) : Bool := A.ne st.s st.lasts

/-- One execution of the loop body (lines 35-41). -/
def PiState.body (A : Arith α) (st : PiState α) : PiState α :=
  let lasts := st.s
  let n := A.add st.n st.na
  let na := A.add st.na (A.ofInt 8)
  let d := A.add st.d st.da
  let da := A.add st.da (A.ofInt 32)
  let t := A.div (A.mul st.t n) d
  let s := t
  ⟨lasts, t, s, n, na, d, da⟩

/-- The state after `k` executions of the loop body. -/
def PiState.iter (A : Arith α) : Nat → PiState α → PiState α
  | 0, st => st
  | k + 1, st => PiState.iter A k (PiState.body A st)

/-- The loop `while (s != lasts) { ... }` (lines 34-42); `fuel` bounds the
number of executions of the body, and `none` means the bound was reached with
the test still true. -/
def PiState.loop (A : Arith α) : Nat → PiState α → Option (PiState α)
  | 0, st => if PiState.test A st then none else some st
  | fuel + 1, st =>
    if PiState.test A st then PiState.loop A fuel (PiState.body A st) else some st

/-- The loop of `calcPifloat` together with the number of times its body ran. -/
def PiState.loopSteps (A : Arith α) : Nat → PiState α → Option (Nat × PiState α)
  | 0, st => if PiState.test A st then none else some (0, st)
  | fuel + 1, st =>
    if PiState.test A st then
      (PiState.loopSteps A fuel (PiState.body A st)).map (fun p => (p.1 + 1, p.2))
    else some (0, st)

/-- The function `double calcPifloat()` (lines 26-44). It has no parameter; the
globals are passed through so that its effect on them can be stated. -/
def calcPifloat (A : Arith α) (fuel : Nat) (g : Globals α) : Option (α × Globals α) :=
  (PiState.loop A fuel (PiState.init A)).map (fun st => (st.s, g))

/-- The closed form of the term after `k` steps in exact arithmetic:
`t_0 = 3` and `t_k = 3 * prod_{i=1..k} (2i-1)^2 / (8i(2i+1))`. -/
def tSeq (k : Nat) : ℚ :=
  3 * ∏ i in Finset.range k,
    ((2 * ((i : ℚ) + 1) - 1) ^ 2 / (8 * ((i : ℚ) + 1) * (2 * ((i : ℚ) + 1) + 1)))

/-- Whether `p` holds of `st` and of the states after each of the next
`k - 1` executions of the body (of `k` states in all). -/
def PiState.allSteps (A : Arith α) (p : PiState α → Bool) : Nat → PiState α → Bool
  | 0, _ => true
  | k + 1, st => p st && PiState.allSteps A p k (PiState.body A st)

/-- Whether, in binary64, the next execution of the body makes `d` strictly
larger and leaves it different from zero. -/
def dGrows (st : PiState Double) : Bool :=
  Double.lt st.d (PiState.body binary64 st).d &&
    Double.ne (PiState.body binary64 st).d (Double.fin false 0)

/-- The state in which the binary64 run of the loop of `calcPifloat` ends. -/
def finalState : PiState Double :=
  ⟨Double.fin false 0, Double.fin false 0, Double.fin false 0, Double.ofInt 1129969,
   Double.ofInt 4256, Double.ofInt 4532640, Double.ofInt 17048⟩

/-- The constant `NITER` (line 8): the bound of the outer loop of `main`. -/
def NITER : Nat := 40

/-- The constant `ROUNDS` (line 9): the bound of the inner loop of `main`. -/
def ROUNDS : Nat := 10000

/-- What `main` takes from `<time.h>`: `clock k` is the value returned by the
`k`-th call of `clock()` (counting from `0`), and `CLOCKS_PER_SEC`. -/
structure Env where
  clock : Nat → Int
  CLOCKS_PER_SEC : Int

/-- An environment for examples: the clock advances by 1000 ticks per
reading, with a million ticks per second. -/
def sampleEnv : Env := ⟨fun k => 1000 * (k : Int), 1000000⟩

/-- The observable actions of `main`, in program order. -/
inductive Event (α : Type) where
  | clock (v : Int)
  | call (r : α)
  | store_gd (v : α)
  | printf (v : α)
deriving DecidableEq, Repr

/-- The state of `main`: the globals, the locals `ld` (not initialised at its
declaration) and `sum`, the number of calls of `clock()` made so far, and the
actions performed so far. -/
structure MainState (α : Type) where
  globals : Globals α
  ld : Option α
  sum : α
  ticks : Nat
  trace : List (Event α)
deriving DecidableEq, Repr

/-- The statement `for (int i = i0; i < i0 + count; ++i) body`, for a body
that does not assign to `i`. -/
def forLoop (body : Nat → σ → Option σ) : Nat → Nat → σ → Option σ
  | 0, _, st => some st
  | count + 1, i, st => (body i st).bind (forLoop body count (i + 1))

/-- A call of `clock()`: its value and the state after it. -/
def readClock (env : Env) (st : MainState α) : Int × MainState α :=
  (env.clock st.ticks,
   ⟨st.globals, st.ld, st.sum, st.ticks + 1, st.trace ++ [Event.clock (env.clock st.ticks)]⟩)

/-- The body of the inner loop, `ld = calcPifloat();` (line 17). -/
def innerBody (A : Arith α) (fuel : Nat) (_j : Nat) (st : MainState α) :
    Option (MainState α) :=
  (calcPifloat A fuel st.globals).map
    (fun p => ⟨p.2, some p.1, st.sum, st.ticks, st.trace ++ [Event.call p.1]⟩)

/-- The body of the outer loop (lines 15-19). -/
def outerBody (A : Arith α) (fuel : Nat) (env : Env) (_i : Nat) (st : MainState α) :
    Option (MainState α) :=
  let start := readClock env st
  (forLoop (innerBody A fuel) ROUNDS 0 start.2).map
    (fun st2 =>
      let stop := readClock env st2
      ⟨stop.2.globals, stop.2.ld,
       A.add stop.2.sum (A.div (A.ofInt (stop.1 - start.1)) (A.ofInt env.CLOCKS_PER_SEC)),
       stop.2.ticks, stop.2.trace⟩)

/-- The two nested loops of `main` (lines 12-20), started with the globals `g`. -/
def mainLoops (A : Arith α) (fuel : Nat) (env : Env) (g : Globals α) :
    Option (MainState α) :=
  forLoop (outerBody A fuel env) NITER 0 ⟨g, none, A.ofInt 0, 0, []⟩

/-- The function `main` of `c_double.c` (lines 11-24), started with the
globals `g`. Reading `ld` before any assignment to it has no defined value and
is reported as `none`. -/
def mainFrom (A : Arith α) (fuel : Nat) (env : Env) (g : Globals α) :
    Option (MainState α) :=
  (mainLoops A fuel env g).bind
    (fun st =>
      match st.ld with
      | none => none
      | some ld =>
        some ⟨⟨ld⟩, st.ld, st.sum, st.ticks,
              st.trace ++ [Event.store_gd ld, Event.printf (A.div st.sum (A.ofInt NITER))]⟩)

/-- The program: `main` run from the zero-initialised global `gd`. -/
def main (A : Arith α) (fuel : Nat) (env : Env) : Option (MainState α) :=
  mainFrom A fuel env ⟨A.ofInt 0⟩

/-- The duration `main` adds to `sum` in round `i`: the difference of the two
clock readings around the inner loop, in seconds (line 19). -/
def duration (A : Arith α) (env : Env) (i : Nat) : α :=
  A.div (A.ofInt (env.clock (2 * i + 1) - env.clock (2 * i))) (A.ofInt env.CLOCKS_PER_SEC)

/-- The actions of round `i` when every call of `calcPifloat` returns `r`: a
clock reading, `ROUNDS` calls, a clock reading. -/
def roundTrace (env : Env) (r : α) (i : Nat) : List (Event α) :=
  Event.clock (env.clock (2 * i)) ::
    (List.replicate ROUNDS (Event.call r) ++ [Event.clock (env.clock (2 * i + 1))])

/-- Whether an action is a call of `calcPifloat`. -/
def Event.isCall : Event α → Bool
  | Event.call _ => true
  | _ => false

/-- Whether an action is a call of `clock()`. -/
def Event.isClock : Event α → Bool
  | Event.clock _ => true
  | _ => false

/-- Whether an action is an assignment to `gd`. -/
def Event.isStore : Event α → Bool
  | Event.store_gd _ => true
  | _ => false

end CDouble

/-! ## `math/sin.C` -/

namespace Sin

/-- The data members of `cosine_fraction<T>` (lines 9-11). -/
structure cosine_fraction (T : Type) where
  a : T
  b : T
  m : T
  z : T
deriving DecidableEq, Repr

/-- The constructor `cosine_fraction(T z)` (lines 13-15). -/
def cosine_fraction.new [LinearOrderedField T] (z : T) : cosine_fraction T :=
  ⟨0, 0, -1, z⟩

/-- The divisor of the formula for `a` at step counter `m` (line 25). -/
def cosine_fraction.divisor [LinearOrderedField T] (m : T) : T :=
  m * (4 * m + -2)

/-- The member `operator()` (lines 19-29): the returned pair and the object
after the call. -/
def cosine_fraction.call [LinearOrderedField T] (g : cosine_fraction T) :
    (T × T) × cosine_fraction T :=
  let m := g.m + 1
  if m = 0 then ((0, 1), ⟨g.a, g.b, m, g.z⟩)
  else
    let a := (g.z * g.z) / cosine_fraction.divisor m
    let b := 1 - a
    ((a, b), ⟨a, b, m, g.z⟩)

/-- The three numbers a call of `operator()` writes to `std::cout` (line 27),
if it writes any: `a`, `b` and `a / b`. -/
def cosine_fraction.printed [LinearOrderedField T] (g : cosine_fraction T) :
    Option (T × T × T) :=
  let m := g.m + 1
  if m = 0 then none
  else
    let a := (g.z * g.z) / cosine_fraction.divisor m
    let b := 1 - a
    some (a, b, a / b)

/-- The generator constructed from `z` after `i` calls of `operator()`. -/
def cosine_fraction.after [LinearOrderedField T] (z : T) : Nat → cosine_fraction T
  | 0 => cosine_fraction.new z
  | i + 1 => (cosine_fraction.after z i).call.2

/-- The pair `(a_i, b_i)` returned by call number `i + 1` of `operator()`. -/
def term [LinearOrderedField T] (z : T) (i : Nat) : T × T :=
  (cosine_fraction.after z i).call.1

/-- Modelled from the spec: the state of the forward two-term recurrence of
`boost::math::tools::continued_fraction_b`, which is not in src/. The fields
are `h_i`, `h_{i-1}`, `k_i` and `k_{i-1}`. -/
structure Convergents (T : Type) where
  h : T
  hp : T
  k : T
  kp : T
deriving DecidableEq, Repr

/-- Modelled from the spec: the recurrence starts from `h_{-1} = 1`,
`h_0 = b_0`, `k_{-1} = 0`, `k_0 = 1`; src/ does not have it. -/
def Convergents.start [LinearOrderedField T] (p : T × T) : Convergents T :=
  ⟨p.2, 1, 1, 0⟩

/-- Modelled from the spec: the step `h_i = b_i*h_{i-1} + a_i*h_{i-2}`,
`k_i = b_i*k_{i-1} + a_i*k_{i-2}` for the term `(a_i, b_i)`; src/ does not
have it. -/
def Convergents.next [LinearOrderedField T] (c : Convergents T) (p : T × T) :
    Convergents T :=
  ⟨p.2 * c.h + p.1 * c.hp, c.h, p.2 * c.k + p.1 * c.kp, c.k⟩

/-- Modelled from the spec: the running approximant `h_i / k_i`; src/ does
not have it. -/
def Convergents.value [LinearOrderedField T] (c : Convergents T) : T :=
  c.h / c.k

/-- The convergents of the continued fraction whose terms `cosine_fraction(z)`
generates, under the forward recurrence. -/
def convergents [LinearOrderedField T] (z : T) : Nat → Convergents T
  | 0 => Convergents.start (term z 0)
  | i + 1 => (convergents z i).next (term z (i + 1))

/-- Modelled from the spec: the loop of `continued_fraction_b`, which is not
in src/. It takes the next term from the generator, advances the recurrence and
stops once the approximant changed by less than `eps`; `fuel` bounds the
number of terms taken, `none` means the bound was reached. -/
def cf_loop [LinearOrderedField T] (eps : T) :
    Nat → cosine_fraction T → Convergents T → Option T
  | 0, _, _ => none
  | fuel + 1, g, c =>
    if |(c.next g.call.1).value - c.value| < eps then some (c.next g.call.1).value
    else cf_loop eps fuel g.call.2 (c.next g.call.1)

/-- Modelled from the spec: `boost::math::tools::continued_fraction_b(g, eps)`,
which is not in src/: the value of `b_0 + a_1/(b_1 + a_2/(b_2 + ...))` for the
terms that `g` generates, to the tolerance `eps`. -/
def continued_fraction_b [LinearOrderedField T] (g : cosine_fraction T) (eps : T)
    (fuel : Nat) : Option T :=
  cf_loop eps fuel g.call.2 (Convergents.start g.call.1)

/-- The function `cosine` (lines 32-41); `eps` stands for
`std::numeric_limits<T>::epsilon()`. -/
def cosine [LinearOrderedField T] (z eps : T) (fuel : Nat) : Option T :=
  (continued_fraction_b (cosine_fraction.new z) eps fuel).map (fun v => 1 / v)

/-- The Taylor polynomial of the cosine of degree `2 * i` at `z`:
the sum of `(-1)^j z^(2j) / (2j)!` for `j = 0, ..., i`. -/
def cosTaylor [LinearOrderedField T] (z : T) (i : Nat) : T :=
  ∑ j in Finset.range (i + 1), (-1) ^ j * z ^ (2 * j) / ((2 * j).factorial : T)

end Sin

/-! ## Theorems about `calcPifloat` -/

namespace CDouble

theorem loop_eq_loopSteps (A : Arith α) (fuel : Nat) (st : PiState α) :
    PiState.loop A fuel st = (PiState.loopSteps A fuel st).map Prod.snd := by
  induction fuel generalizing st with
  | zero =>
    simp only [PiState.loop, PiState.loopSteps]
    split <;> rfl
  | succ f ih =>
    simp only [PiState.loop, PiState.loopSteps]
    split
    · rw [ih, Option.map_map]
      rfl
    · rfl

theorem iter_succ_body (A : Arith α) (k : Nat) (st : PiState α) :
    PiState.iter A (k + 1) st = PiState.body A (PiState.iter A k st) := by
  induction k generalizing st with
  | zero => rfl
  | succ k ih =>
    show PiState.iter A (k + 1) (PiState.body A st) = _
    rw [ih]
    rfl

theorem loopSteps_spec (A : Arith α) (fuel : Nat) :
    ∀ (st : PiState α) (k : Nat) (st' : PiState α),
      PiState.loopSteps A fuel st = some (k, st') →
      k ≤ fuel ∧ st' = PiState.iter A k st ∧ PiState.test A st' = false ∧
        ∀ j, j < k → PiState.test A (PiState.iter A j st) = true := by
  induction fuel with
  | zero =>
    intro st k st' h
    simp only [PiState.loopSteps] at h
    by_cases ht : PiState.test A st = true
    · simp [ht] at h
    · simp only [ht] at h
      simp only [Bool.false_eq_true, if_false, Option.some.injEq, Prod.mk.injEq] at h
      obtain ⟨rfl, rfl⟩ := h
      refine ⟨le_refl _, rfl, by simpa using ht, ?_⟩
      intro j hj
      omega
  | succ f ih =>
    intro st k st' h
    simp only [PiState.loopSteps] at h
    by_cases ht : PiState.test A st = true
    · simp only [ht, if_true] at h
      cases hq : PiState.loopSteps A f (PiState.body A st) with
      | none => simp [hq] at h
      | some q =>
        obtain ⟨k0, st0⟩ := q
        simp only [hq, Option.map_some', Option.some.injEq, Prod.mk.injEq] at h
        obtain ⟨rfl, rfl⟩ := h
        obtain ⟨h1, h2, h3, h4⟩ := ih (PiState.body A st) k0 st0 hq
        refine ⟨by omega, h2, h3, ?_⟩
        intro j hj
        cases j with
        | zero => exact ht
        | succ j => exact h4 j (by omega)
    · simp only [ht] at h
      simp only [Bool.false_eq_true, if_false, Option.some.injEq, Prod.mk.injEq] at h
      obtain ⟨rfl, rfl⟩ := h
      refine ⟨Nat.zero_le _, rfl, by simpa using ht, ?_⟩
      intro j hj
      omega

theorem loopSteps_add (A : Arith α) (fuel : Nat) :
    ∀ (st : PiState α) (r : Nat × PiState α) (e : Nat),
      PiState.loopSteps A fuel st = some r → PiState.loopSteps A (fuel + e) st = some r := by
  induction fuel with
  | zero =>
    intro st r e h
    simp only [PiState.loopSteps] at h
    by_cases ht : PiState.test A st = true
    · simp [ht] at h
    · cases e with
      | zero => simpa [PiState.loopSteps, ht] using h
      | succ e =>
        simp only [ht] at h
        rw [Nat.zero_add]
        simpa [PiState.loopSteps, ht] using h
  | succ f ih =>
    intro st r e h
    rw [Nat.add_right_comm]
    simp only [PiState.loopSteps] at h ⊢
    by_cases ht : PiState.test A st = true
    · simp only [ht, if_true] at h ⊢
      cases hq : PiState.loopSteps A f (PiState.body A st) with
      | none => simp [hq] at h
      | some q =>
        rw [ih _ q e hq]
        rw [hq] at h
        exact h
    · simpa [ht] using h

theorem calcPifloat_of_loopSteps (A : Arith α) (fuel k : Nat) (st : PiState α)
    (h : PiState.loopSteps A fuel (PiState.init A) = some (k, st)) (e : Nat)
    (g : Globals α) : calcPifloat A (fuel + e) g = some (st.s, g) := by
  unfold calcPifloat
  rw [loop_eq_loopSteps, loopSteps_add A fuel _ _ e h]
  rfl

theorem calcPifloat_none_of_lt (A : Arith α) (k : Nat)
    (h : ∀ j, j ≤ k → PiState.test A (PiState.iter A j (PiState.init A)) = true)
    (g : Globals α) : calcPifloat A k g = none := by
  unfold calcPifloat
  rw [loop_eq_loopSteps]
  cases hq : PiState.loopSteps A k (PiState.init A) with
  | none => rfl
  | some q =>
    obtain ⟨k0, st0⟩ := q
    obtain ⟨h1, h2, h3, _⟩ := loopSteps_spec A k _ k0 st0 hq
    rw [h2, h k0 h1] at h3
    exact absurd h3 (by simp)

/-- The binary64 run of the loop: from the initialisers the body runs 532
times and the loop is left in `finalState`. -/
theorem binary64_run :
    PiState.loopSteps binary64 532 (PiState.init binary64) = some (532, finalState) := by
  decide!

end CDouble

namespace CDouble

theorem binary64_iter_final :
    PiState.iter binary64 532 (PiState.init binary64) = finalState :=
  ((loopSteps_spec binary64 532 _ 532 finalState binary64_run).2.1).symm

theorem binary64_test_before (j : Nat) (hj : j < 532) :
    PiState.test binary64 (PiState.iter binary64 j (PiState.init binary64)) = true :=
  (loopSteps_spec binary64 532 _ 532 finalState binary64_run).2.2.2 j hj

theorem pi_far_from_zero : (1 : ℝ) / 10 ^ 10 < |((0 : ℚ) : ℝ) - Real.pi| := by
  have h := Real.pi_gt_three
  rw [Rat.cast_zero, zero_sub, abs_neg, abs_of_pos Real.pi_pos]
  have : (1 : ℝ) / 10 ^ 10 < 3 := by norm_num
  linarith

/-- C1 (code defect): under binary64 arithmetic every call of `calcPifloat`
returns `+0.0`, because line 41 assigns the term `t` to `s` instead of adding
it; the returned value is farther than `1e-10` from pi. -/
theorem calcPifloat_returns_zero (e : Nat) (g : Globals Double) :
    ∃ r q, calcPifloat binary64 (532 + e) g = some (r, g) ∧ r = Double.fin false 0 ∧
      Double.toRat r = some q ∧ (1 : ℝ) / 10 ^ 10 < |(q : ℝ) - Real.pi| := by
  refine ⟨Double.fin false 0, 0, ?_, rfl, ?_, pi_far_from_zero⟩
  · exact calcPifloat_of_loopSteps binary64 532 532 finalState binary64_run e g
  · simp [Double.toRat]

/-- C5: under binary64 arithmetic `calcPifloat` terminates. The test
`s != lasts` is true before each of the first 532 executions of the body and
false after the 532nd, where `s` and `lasts` are the same finite value; the
loop is left exactly there and that `s` is returned (with less fuel than 532
steps the model has not yet returned). -/
theorem calcPifloat_terminates :
    ∃ k, 1 ≤ k ∧
      (∀ j, j < k →
        PiState.test binary64 (PiState.iter binary64 j (PiState.init binary64)) = true) ∧
      PiState.test binary64 (PiState.iter binary64 k (PiState.init binary64)) = false ∧
      (PiState.iter binary64 k (PiState.init binary64)).s =
        (PiState.iter binary64 k (PiState.init binary64)).lasts ∧
      (∃ m, (PiState.iter binary64 k (PiState.init binary64)).s = Double.fin false m) ∧
      (∀ fuel g, k ≤ fuel → calcPifloat binary64 fuel g =
        some ((PiState.iter binary64 k (PiState.init binary64)).s, g)) ∧
      (∀ fuel g, fuel < k → calcPifloat binary64 fuel g = none) := by
  refine ⟨532, by decide, binary64_test_before, ?_, ?_, ?_, ?_, ?_⟩
  · rw [binary64_iter_final]
    exact (loopSteps_spec binary64 532 _ 532 finalState binary64_run).2.2.1
  · rw [binary64_iter_final]
    rfl
  · rw [binary64_iter_final]
    exact ⟨0, rfl⟩
  · intro fuel g hk
    obtain ⟨e, rfl⟩ := Nat.exists_eq_add_of_le hk
    rw [binary64_iter_final]
    exact calcPifloat_of_loopSteps binary64 532 532 finalState binary64_run e g
  · intro fuel g hk
    exact calcPifloat_none_of_lt binary64 fuel
      (fun j hj => binary64_test_before j (by omega)) g

/-- C9: `calcPifloat` takes no argument, leaves the globals (so `gd`) as they
were and returns a value that does not depend on them, for every reading of
the arithmetic; under binary64 every call returns the same bits, `+0.0`. -/
theorem calcPifloat_deterministic :
    (∀ (α : Type) (A : Arith α) (fuel : Nat) (g1 g2 : Globals α),
      (calcPifloat A fuel g1).map Prod.snd = (calcPifloat A fuel g1).map (fun _ => g1) ∧
      (calcPifloat A fuel g1).map Prod.fst = (calcPifloat A fuel g2).map Prod.fst) ∧
    (∀ (e : Nat) (g : Globals Double),
      calcPifloat binary64 (532 + e) g = some (Double.fin false 0, g)) := by
  constructor
  · intro α A fuel g1 g2
    unfold calcPifloat
    cases PiState.loop A fuel (PiState.init A) <;> simp
  · intro e g
    exact calcPifloat_of_loopSteps binary64 532 532 finalState binary64_run e g

end CDouble

namespace CDouble

theorem exact_body (st : PiState ℚ) :
    PiState.body exact st =
      ⟨st.s, st.t * (st.n + st.na) / (st.d + st.da), st.t * (st.n + st.na) / (st.d + st.da),
       st.n + st.na, st.na + 8, st.d + st.da, st.da + 32⟩ := by
  simp [PiState.body, exact]

theorem exact_init : PiState.init exact = ⟨0, 3, 3, 1, 0, 0, 24⟩ := by
  simp [PiState.init, exact]

theorem tSeq_zero : tSeq 0 = 3 := by
  simp [tSeq]

theorem tSeq_succ (k : Nat) :
    tSeq (k + 1) =
      tSeq k * ((2 * ((k : ℚ) + 1) - 1) ^ 2 / (8 * ((k : ℚ) + 1) * (2 * ((k : ℚ) + 1) + 1))) := by
  simp only [tSeq, Finset.prod_range_succ]
  ring

theorem tSeq_pos (k : Nat) : 0 < tSeq k := by
  induction k with
  | zero => rw [tSeq_zero]; norm_num
  | succ k ih =>
    rw [tSeq_succ]
    have hk : (0 : ℚ) ≤ k := Nat.cast_nonneg k
    have h0 : (0 : ℚ) < 2 * ((k : ℚ) + 1) - 1 := by linarith
    have h1 : (0 : ℚ) < (2 * ((k : ℚ) + 1) - 1) ^ 2 := pow_pos h0 2
    have h2 : (0 : ℚ) < 8 * ((k : ℚ) + 1) * (2 * ((k : ℚ) + 1) + 1) := by positivity
    exact mul_pos ih (div_pos h1 h2)

theorem tSeq_lt (k : Nat) : tSeq (k + 1) < tSeq k / 4 := by
  rw [tSeq_succ]
  have hk : (0 : ℚ) ≤ k := Nat.cast_nonneg k
  have h2 : (0 : ℚ) < 8 * ((k : ℚ) + 1) * (2 * ((k : ℚ) + 1) + 1) := by positivity
  have h3 : (2 * ((k : ℚ) + 1) - 1) ^ 2 / (8 * ((k : ℚ) + 1) * (2 * ((k : ℚ) + 1) + 1)) < 1 / 4 := by
    rw [div_lt_div_iff₀ h2 (by norm_num)]
    nlinarith
  have := mul_lt_mul_of_pos_left h3 (tSeq_pos k)
  linarith

theorem exact_iter_succ (k : Nat) :
    PiState.iter exact (k + 1) (PiState.init exact) =
      ⟨tSeq k, tSeq (k + 1), tSeq (k + 1), (2 * ((k : ℚ) + 1) - 1) ^ 2, 8 * ((k : ℚ) + 1),
       8 * ((k : ℚ) + 1) * (2 * ((k : ℚ) + 1) + 1), 32 * ((k : ℚ) + 1) + 24⟩ := by
  induction k with
  | zero =>
    rw [iter_succ_body]
    simp only [PiState.iter, exact_init, exact_body, tSeq_succ, tSeq_zero]
    norm_num
  | succ k ih =>
    rw [iter_succ_body, ih, exact_body]
    simp only [PiState.mk.injEq]
    have hk : (0 : ℚ) ≤ k := Nat.cast_nonneg k
    have hn : (2 * ((k : ℚ) + 1) - 1) ^ 2 + 8 * ((k : ℚ) + 1) =
        (2 * (((k + 1 : ℕ) : ℚ) + 1) - 1) ^ 2 := by push_cast; ring
    have hd : 8 * ((k : ℚ) + 1) * (2 * ((k : ℚ) + 1) + 1) + (32 * ((k : ℚ) + 1) + 24) =
        8 * (((k + 1 : ℕ) : ℚ) + 1) * (2 * (((k + 1 : ℕ) : ℚ) + 1) + 1) := by push_cast; ring
    have ht : tSeq (k + 1) * ((2 * ((k : ℚ) + 1) - 1) ^ 2 + 8 * ((k : ℚ) + 1)) /
        (8 * ((k : ℚ) + 1) * (2 * ((k : ℚ) + 1) + 1) + (32 * ((k : ℚ) + 1) + 24)) =
        tSeq (k + 1 + 1) := by
      rw [hn, hd, tSeq_succ (k + 1), mul_div_assoc]
    refine ⟨trivial, ht, ht, hn, ?_, hd, ?_⟩ <;> (push_cast; ring)

theorem exact_test (k : Nat) :
    PiState.test exact (PiState.iter exact k (PiState.init exact)) = true := by
  cases k with
  | zero =>
    simp only [PiState.iter, PiState.test]
    rw [exact_init]
    simp [exact]
  | succ k =>
    rw [exact_iter_succ]
    have h1 := tSeq_lt k
    have h2 := tSeq_pos k
    have : tSeq (k + 1) ≠ tSeq k := by
      intro h
      rw [h] at h1
      linarith
    simpa [PiState.test, exact] using this

end CDouble

namespace CDouble

theorem allSteps_spec (A : Arith α) (p : PiState α → Bool) (k : Nat) :
    ∀ st : PiState α, PiState.allSteps A p k st = true →
      ∀ j, j < k → p (PiState.iter A j st) = true := by
  induction k with
  | zero =>
    intro st _ j hj
    omega
  | succ k ih =>
    intro st h j hj
    simp only [PiState.allSteps, Bool.and_eq_true] at h
    cases j with
    | zero => exact h.1
    | succ j => exact ih (PiState.body A st) h.2 j (by omega)

theorem binary64_dGrows :
    PiState.allSteps binary64 dGrows 532 (PiState.init binary64) = true := by
  decide!

/-- C6 (counterexample): the seed value of `d` is `0.0`, which is not
positive, in exact arithmetic as in binary64. -/
theorem seed_d_not_positive :
    ¬ (0 < (PiState.init exact).d) ∧
    Double.lt (Double.fin false 0) (PiState.init binary64).d = false := by
  constructor
  · rw [exact_init]
    norm_num
  · decide!

/-- C6 (amended): `d` is seeded with `0` and `da` with `24`; each step first
adds `da` to `d` and then divides by the new `d`. In exact arithmetic `d` is
strictly larger after every step than before it and is not zero after any
step; in binary64 the same holds for each of the 532 steps of the run. So the
divisor of `t = (t * n) / d` is non-zero at every step. -/
theorem divisor_nonzero :
    (PiState.init exact).d = 0 ∧ (PiState.init exact).da = 24 ∧
    (∀ (α : Type) (A : Arith α) (st : PiState α),
      (PiState.body A st).d = A.add st.d st.da ∧
      (PiState.body A st).t = A.div (A.mul st.t (PiState.body A st).n) (PiState.body A st).d) ∧
    (∀ k, (PiState.iter exact k (PiState.init exact)).d <
        (PiState.iter exact (k + 1) (PiState.init exact)).d ∧
      (PiState.iter exact (k + 1) (PiState.init exact)).d ≠ 0) ∧
    (∀ k, k < 532 →
      Double.lt (PiState.iter binary64 k (PiState.init binary64)).d
        (PiState.iter binary64 (k + 1) (PiState.init binary64)).d = true ∧
      Double.ne (PiState.iter binary64 (k + 1) (PiState.init binary64)).d
        (Double.fin false 0) = true) := by
  refine ⟨by rw [exact_init], by rw [exact_init], fun α A st => ⟨rfl, rfl⟩, ?_, ?_⟩
  · intro k
    have hpos : ∀ j : Nat, (0 : ℚ) <
        (PiState.iter exact (j + 1) (PiState.init exact)).d := by
      intro j
      rw [exact_iter_succ]
      have hj : (0 : ℚ) ≤ j := Nat.cast_nonneg j
      show (0 : ℚ) < 8 * ((j : ℚ) + 1) * (2 * ((j : ℚ) + 1) + 1)
      positivity
    refine ⟨?_, ne_of_gt (hpos k)⟩
    cases k with
    | zero =>
      have h := hpos 0
      simp only [PiState.iter] at h ⊢
      rw [exact_init] at h ⊢
      exact h
    | succ k =>
      rw [exact_iter_succ, exact_iter_succ]
      have hk : (0 : ℚ) ≤ k := Nat.cast_nonneg k
      show 8 * ((k : ℚ) + 1) * (2 * ((k : ℚ) + 1) + 1) <
        8 * (((k + 1 : ℕ) : ℚ) + 1) * (2 * (((k + 1 : ℕ) : ℚ) + 1) + 1)
      push_cast
      nlinarith
  · intro k hk
    have h := allSteps_spec binary64 dGrows 532 _ binary64_dGrows k hk
    simp only [dGrows, Bool.and_eq_true] at h
    rw [iter_succ_body]
    exact h

/-- C12: in exact arithmetic, after `k + 1` executions of the body (that is
after `k' = k + 1 ≥ 1` steps) the state is `lasts = t_{k'-1}`, `t = s = t_{k'}`,
`n = (2k'-1)^2`, `na = 8k'`, `d = 8k'(2k'+1)`, `da = 32k' + 24`, with `t_0 = 3`
and `t_{j+1} = t_j * (2(j+1)-1)^2 / (8(j+1)(2(j+1)+1))`; the state after a
step is the body applied to the state before it, the body being the rule
`n += na; na += 8; d += da; da += 32; t = (t*n)/d; s = t`. -/
theorem calcPifloat_closed_form (k : Nat) :
    PiState.iter exact (k + 1) (PiState.init exact) =
      ⟨tSeq k, tSeq (k + 1), tSeq (k + 1), (2 * ((k : ℚ) + 1) - 1) ^ 2, 8 * ((k : ℚ) + 1),
       8 * ((k : ℚ) + 1) * (2 * ((k : ℚ) + 1) + 1), 32 * ((k : ℚ) + 1) + 24⟩ ∧
    tSeq 0 = 3 ∧
    tSeq (k + 1) = 3 * ∏ i in Finset.range (k + 1),
      ((2 * ((i : ℚ) + 1) - 1) ^ 2 / (8 * ((i : ℚ) + 1) * (2 * ((i : ℚ) + 1) + 1))) ∧
    PiState.iter exact (k + 1) (PiState.init exact) =
      PiState.body exact (PiState.iter exact k (PiState.init exact)) ∧
    (∀ st : PiState ℚ, PiState.body exact st =
      ⟨st.s, st.t * (st.n + st.na) / (st.d + st.da), st.t * (st.n + st.na) / (st.d + st.da),
       st.n + st.na, st.na + 8, st.d + st.da, st.da + 32⟩) :=
  ⟨exact_iter_succ k, tSeq_zero, rfl, iter_succ_body exact k _, exact_body⟩

/-- C11: in exact arithmetic `s` is the term `t` itself at every loop test;
for every step the factor `n / d` lies strictly between `0` and `1/4`, so
`0 < t_{k+1} < t_k / 4`; the test `s != lasts` is true at every loop test, so
`calcPifloat` returns for no bound on the number of steps; and a value `x`
that a step maps to itself (`x * n / d = x`) can only be `0`. -/
theorem calcPifloat_exact_never_exits :
    (∀ k, (PiState.iter exact k (PiState.init exact)).s =
      (PiState.iter exact k (PiState.init exact)).t) ∧
    (∀ k, 0 < (PiState.iter exact (k + 1) (PiState.init exact)).n /
        (PiState.iter exact (k + 1) (PiState.init exact)).d ∧
      (PiState.iter exact (k + 1) (PiState.init exact)).n /
        (PiState.iter exact (k + 1) (PiState.init exact)).d < 1 / 4) ∧
    (∀ k, 0 < (PiState.iter exact (k + 1) (PiState.init exact)).t ∧
      (PiState.iter exact (k + 1) (PiState.init exact)).t <
        (PiState.iter exact k (PiState.init exact)).t / 4) ∧
    (∀ k, PiState.test exact (PiState.iter exact k (PiState.init exact)) = true) ∧
    (∀ fuel g, calcPifloat exact fuel g = none) ∧
    (∀ k x, x * (PiState.iter exact (k + 1) (PiState.init exact)).n /
        (PiState.iter exact (k + 1) (PiState.init exact)).d = x → x = 0) := by
  have hfac : ∀ k : Nat, 0 < (PiState.iter exact (k + 1) (PiState.init exact)).n /
        (PiState.iter exact (k + 1) (PiState.init exact)).d ∧
      (PiState.iter exact (k + 1) (PiState.init exact)).n /
        (PiState.iter exact (k + 1) (PiState.init exact)).d < 1 / 4 := by
    intro k
    rw [exact_iter_succ]
    have hk : (0 : ℚ) ≤ k := Nat.cast_nonneg k
    have h0 : (0 : ℚ) < 2 * ((k : ℚ) + 1) - 1 := by linarith
    have h1 : (0 : ℚ) < (2 * ((k : ℚ) + 1) - 1) ^ 2 := pow_pos h0 2
    have h2 : (0 : ℚ) < 8 * ((k : ℚ) + 1) * (2 * ((k : ℚ) + 1) + 1) := by positivity
    refine ⟨div_pos h1 h2, ?_⟩
    show (2 * ((k : ℚ) + 1) - 1) ^ 2 / (8 * ((k : ℚ) + 1) * (2 * ((k : ℚ) + 1) + 1)) < 1 / 4
    rw [div_lt_div_iff₀ h2 (by norm_num)]
    nlinarith
  have ht : ∀ k : Nat, (PiState.iter exact k (PiState.init exact)).t = tSeq k := by
    intro k
    cases k with
    | zero =>
      simp only [PiState.iter]
      rw [exact_init, tSeq_zero]
    | succ k => rw [exact_iter_succ]
  refine ⟨?_, hfac, ?_, exact_test, ?_, ?_⟩
  · intro k
    cases k with
    | zero =>
      simp only [PiState.iter]
      rw [exact_init]
    | succ k => rw [exact_iter_succ]
  · intro k
    rw [ht, ht]
    exact ⟨tSeq_pos (k + 1), tSeq_lt k⟩
  · intro fuel g
    exact calcPifloat_none_of_lt exact fuel (fun j _ => exact_test j) g
  · intro k x hx
    obtain ⟨h1, h2⟩ := hfac k
    rw [mul_div_assoc] at hx
    by_contra hne
    have : (PiState.iter exact (k + 1) (PiState.init exact)).n /
        (PiState.iter exact (k + 1) (PiState.init exact)).d = 1 := by
      have h3 := mul_left_cancel₀ hne (hx.trans (mul_one x).symm)
      exact h3
    rw [this] at h2
    norm_num at h2

end CDouble

/-! ## Theorems about `main` of `c_double.c` -/

namespace CDouble

theorem inner_run (A : Arith α) (fuel : Nat) (r : α)
    (hcall : ∀ g, calcPifloat A fuel g = some (r, g)) (c : Nat) :
    ∀ (j : Nat) (st : MainState α), forLoop (innerBody A fuel) c j st =
      some ⟨st.globals, if c = 0 then st.ld else some r, st.sum, st.ticks,
            st.trace ++ List.replicate c (Event.call r)⟩ := by
  induction c with
  | zero =>
    intro j st
    simp [forLoop]
  | succ c ih =>
    intro j st
    simp only [forLoop, innerBody, hcall, Option.map_some', Option.some_bind]
    rw [ih]
    simp [List.replicate_succ]

theorem ROUNDS_ne_zero : ROUNDS ≠ 0 := by decide

theorem NITER_ne_zero : NITER ≠ 0 := by decide

theorem outer_body_run (A : Arith α) (fuel : Nat) (env : Env) (r : α)
    (hcall : ∀ g, calcPifloat A fuel g = some (r, g)) (i : Nat) (st : MainState α) :
    outerBody A fuel env i st =
      some ⟨st.globals, some r,
            A.add st.sum (A.div (A.ofInt (env.clock (st.ticks + 1) - env.clock st.ticks))
              (A.ofInt env.CLOCKS_PER_SEC)),
            st.ticks + 2,
            st.trace ++ (Event.clock (env.clock st.ticks) ::
              (List.replicate ROUNDS (Event.call r) ++
                [Event.clock (env.clock (st.ticks + 1))]))⟩ := by
  simp only [outerBody, readClock, inner_run A fuel r hcall, Option.map_some',
    if_neg ROUNDS_ne_zero]
  simp

theorem outer_run (A : Arith α) (fuel : Nat) (env : Env) (r : α)
    (hcall : ∀ g, calcPifloat A fuel g = some (r, g)) (c : Nat) :
    ∀ (i : Nat) (st : MainState α), st.ticks = 2 * i →
      forLoop (outerBody A fuel env) c i st =
        some ⟨st.globals, if c = 0 then st.ld else some r,
              List.foldl A.add st.sum ((List.range' i c).map (duration A env)),
              2 * (i + c),
              st.trace ++ ((List.range' i c).map (roundTrace env r)).flatten⟩ := by
  induction c with
  | zero =>
    intro i st h
    obtain ⟨g, ld, sum, ticks, trace⟩ := st
    simp only at h
    subst h
    simp [forLoop]
  | succ c ih =>
    intro i st h
    simp only [forLoop, outer_body_run A fuel env r hcall, Option.some_bind]
    rw [ih (i + 1) _ (by simp only [h]; ring)]
    simp only [List.range'_succ, List.map_cons, List.foldl_cons, List.flatten_cons,
      duration, roundTrace, h, List.append_assoc]
    have h2 : 2 * (i + 1 + c) = 2 * (i + (c + 1)) := by ring
    simp [h2]

theorem main_run (A : Arith α) (fuel : Nat) (env : Env) (r : α)
    (hcall : ∀ g, calcPifloat A fuel g = some (r, g)) (g0 : Globals α) :
    mainLoops A fuel env g0 =
      some ⟨g0, some r,
            List.foldl A.add (A.ofInt 0) ((List.range NITER).map (duration A env)),
            2 * NITER,
            ((List.range NITER).map (roundTrace env r)).flatten⟩ ∧
    mainFrom A fuel env g0 =
      some ⟨⟨r⟩, some r,
            List.foldl A.add (A.ofInt 0) ((List.range NITER).map (duration A env)),
            2 * NITER,
            ((List.range NITER).map (roundTrace env r)).flatten ++
              [Event.store_gd r,
               Event.printf (A.div
                 (List.foldl A.add (A.ofInt 0) ((List.range NITER).map (duration A env)))
                 (A.ofInt NITER))]⟩ := by
  have h1 : mainLoops A fuel env g0 =
      some ⟨g0, some r,
            List.foldl A.add (A.ofInt 0) ((List.range NITER).map (duration A env)),
            2 * NITER,
            ((List.range NITER).map (roundTrace env r)).flatten⟩ := by
    unfold mainLoops
    rw [outer_run A fuel env r hcall NITER 0 _ rfl, if_neg NITER_ne_zero,
      List.range_eq_range']
    simp
  refine ⟨h1, ?_⟩
  unfold mainFrom
  rw [h1]
  rfl

theorem binary64_call (e : Nat) (g : Globals Double) :
    calcPifloat binary64 (532 + e) g = some (Double.fin false 0, g) :=
  calcPifloat_of_loopSteps binary64 532 532 finalState binary64_run e g

theorem roundTrace_calls (env : Env) (r : α) (i : Nat) :
    List.filter Event.isCall (roundTrace env r i) = List.replicate ROUNDS (Event.call r) := by
  simp only [roundTrace, List.filter_cons, List.filter_append, List.filter_replicate,
    Event.isCall, List.filter_nil]
  simp

theorem rounds_calls (env : Env) (r : α) (l : List Nat) :
    List.filter Event.isCall ((l.map (roundTrace env r)).flatten) =
      List.replicate (l.length * ROUNDS) (Event.call r) := by
  induction l with
  | nil => simp
  | cons i l ih =>
    simp only [List.map_cons, List.flatten_cons, List.filter_append, ih, roundTrace_calls,
      List.length_cons, List.append_replicate_replicate]
    congr 1
    ring

theorem roundTrace_clocks (env : Env) (r : α) (i : Nat) :
    List.countP Event.isClock (roundTrace env r i) = 2 := by
  simp only [roundTrace, List.countP_cons, List.countP_append, List.countP_replicate,
    Event.isClock, List.countP_nil]
  simp

theorem rounds_clocks (env : Env) (r : α) (l : List Nat) :
    List.countP Event.isClock ((l.map (roundTrace env r)).flatten) = 2 * l.length := by
  induction l with
  | nil => simp
  | cons i l ih =>
    simp only [List.map_cons, List.flatten_cons, List.countP_append, ih, roundTrace_clocks,
      List.length_cons]
    ring

theorem rounds_stores (env : Env) (r : α) (l : List Nat) :
    List.countP Event.isStore ((l.map (roundTrace env r)).flatten) = 0 := by
  induction l with
  | nil => simp
  | cons i l ih =>
    simp only [List.map_cons, List.flatten_cons, List.countP_append, ih, roundTrace,
      List.countP_cons, List.countP_replicate, Event.isStore, List.countP_nil]
    simp

end CDouble

namespace CDouble

theorem getLast_replicate_succ (n : Nat) (a : β) :
    (List.replicate (n + 1) a).getLast? = some a := by
  rw [List.replicate_succ', List.getLast?_append]
  simp

theorem calls_total : NITER * ROUNDS = 399999 + 1 := by decide

theorem main_trace_counts (env : Env) (r v : α) (tr : List (Event α))
    (h : tr = ((List.range NITER).map (roundTrace env r)).flatten ++
      [Event.store_gd r, Event.printf v]) :
    List.filter Event.isCall tr = List.replicate (NITER * ROUNDS) (Event.call r) ∧
    List.countP Event.isCall tr = NITER * ROUNDS ∧
    List.countP Event.isClock tr = 2 * NITER ∧
    List.filter Event.isStore tr = [Event.store_gd r] := by
  have hc : List.filter Event.isCall tr = List.replicate (NITER * ROUNDS) (Event.call r) := by
    rw [h, List.filter_append, rounds_calls, List.length_range]
    simp [Event.isCall]
  refine ⟨hc, ?_, ?_, ?_⟩
  · rw [List.countP_eq_length_filter, hc, List.length_replicate]
  · rw [h, List.countP_append, rounds_clocks, List.length_range]
    simp [Event.isClock]
  · have h0 : List.filter Event.isStore ((List.range NITER).map (roundTrace env r)).flatten
        = [] := by
      rw [List.filter_eq_nil_iff]
      intro x hx hs
      have := rounds_stores env r (List.range NITER)
      rw [List.countP_eq_zero] at this
      exact this x hx hs
    rw [h, List.filter_append, h0]
    simp [Event.isStore]

/-- C8 (counterexample): on a run of `main` the calls of `calcPifloat` number
400,000, not 100,000, and `clock()` is read 80 times, twice in each of 40
rounds, not twice in each of 10. -/
theorem main_not_ten_rounds :
    ∃ st, main binary64 532 sampleEnv = some st ∧
      List.countP Event.isCall st.trace = 400000 ∧
      List.countP Event.isCall st.trace ≠ 10 * 10000 ∧
      List.countP Event.isClock st.trace = 2 * 40 ∧
      List.countP Event.isClock st.trace ≠ 2 * 10 := by
  obtain ⟨_, h2⟩ := main_run binary64 (532 + 0) sampleEnv (Double.fin false 0)
    (binary64_call 0) ⟨binary64.ofInt 0⟩
  obtain ⟨_, hc, hk, _⟩ := main_trace_counts sampleEnv (Double.fin false 0) _ _ rfl
  refine ⟨_, h2, ?_, ?_, ?_, ?_⟩
  · rw [hc]; decide
  · rw [hc]; decide
  · rw [hk]; decide
  · rw [hk]; decide

/-- C8 (amended): `main` runs `NITER = 40` rounds; each round consists of a
reading of the clock, `ROUNDS = 10000` calls of `calcPifloat` in immediate
succession and a second reading of the clock; over one run that is 400,000
calls. -/
theorem main_runs_forty_rounds (e : Nat) (env : Env) :
    NITER = 40 ∧ ROUNDS = 10000 ∧
    ∃ st v, main binary64 (532 + e) env = some st ∧
      st.trace = ((List.range 40).map (roundTrace env (Double.fin false 0))).flatten ++
        [Event.store_gd (Double.fin false 0), Event.printf v] ∧
      (∀ i, roundTrace env (Double.fin false 0) i =
        Event.clock (env.clock (2 * i)) ::
          (List.replicate 10000 (Event.call (Double.fin false 0)) ++
            [Event.clock (env.clock (2 * i + 1))])) ∧
      List.countP Event.isCall st.trace = 400000 ∧
      List.countP Event.isClock st.trace = 2 * 40 := by
  obtain ⟨_, h2⟩ := main_run binary64 (532 + e) env (Double.fin false 0)
    (binary64_call e) ⟨binary64.ofInt 0⟩
  obtain ⟨_, hc, hk, _⟩ := main_trace_counts env (Double.fin false 0) _ _ rfl
  refine ⟨rfl, rfl, _, _, h2, rfl, fun i => rfl, ?_, ?_⟩
  · rw [hc]; decide
  · rw [hk]; decide

theorem exact_mean (ds : List ℚ) :
    exact.div (List.foldl exact.add (exact.ofInt 0) ds) (exact.ofInt (ds.length : Nat)) =
      ds.sum / (ds.length : ℚ) := by
  simp [exact, List.sum_eq_foldl]

/-- C15: `main` adds one duration per round to `sum`, the difference of the
clock readings taken immediately before and immediately after the round's inner
loop divided by `CLOCKS_PER_SEC`, and prints `sum / NITER`, where `NITER` is the
number of rounds run: the sum of the per-round durations, accumulated in round
order in the arithmetic of `double`, divided by their number. In exact
arithmetic this expression is the arithmetic mean. -/
theorem main_reports_mean (e : Nat) (env : Env) :
    ∃ st, main binary64 (532 + e) env = some st ∧
      st.trace = ((List.range NITER).map (roundTrace env (Double.fin false 0))).flatten ++
        [Event.store_gd (Double.fin false 0),
         Event.printf (binary64.div
           (List.foldl binary64.add (binary64.ofInt 0)
             ((List.range NITER).map (duration binary64 env)))
           (binary64.ofInt (((List.range NITER).map (duration binary64 env)).length : Nat)))] ∧
      st.sum = List.foldl binary64.add (binary64.ofInt 0)
        ((List.range NITER).map (duration binary64 env)) ∧
      ((List.range NITER).map (duration binary64 env)).length = NITER ∧
      st.ticks = 2 * NITER ∧
      (∀ i, duration binary64 env i =
        binary64.div (binary64.ofInt (env.clock (2 * i + 1) - env.clock (2 * i)))
          (binary64.ofInt env.CLOCKS_PER_SEC)) ∧
      (∀ i, roundTrace env (Double.fin false 0) i =
        Event.clock (env.clock (2 * i)) ::
          (List.replicate ROUNDS (Event.call (Double.fin false 0)) ++
            [Event.clock (env.clock (2 * i + 1))])) ∧
      (∀ ds : List ℚ,
        exact.div (List.foldl exact.add (exact.ofInt 0) ds) (exact.ofInt (ds.length : Nat)) =
          ds.sum / (ds.length : ℚ)) := by
  obtain ⟨_, h2⟩ := main_run binary64 (532 + e) env (Double.fin false 0)
    (binary64_call e) ⟨binary64.ofInt 0⟩
  have hl : ((List.range NITER).map (duration binary64 env)).length = NITER := by simp
  refine ⟨_, h2, ?_, ?_, hl, ?_, ?_, ?_, exact_mean⟩
  · rw [hl]
  · simp only
  · simp only
  · intro i
    simp only [duration]
  · intro i
    simp only [roundTrace]

/-- C16: the loops of `main` leave `gd` as it was (no call of `calcPifloat`
changes the globals); the one assignment to `gd` is the statement after the
loops, and when `main` finishes `gd` holds the value of `ld`, which is the value
returned by the last call of `calcPifloat`. -/
theorem main_gd_last_value (e : Nat) (env : Env) (g0 : Globals Double) :
    main binary64 (532 + e) env = mainFrom binary64 (532 + e) env ⟨binary64.ofInt 0⟩ ∧
    (∀ (fuel : Nat) (g : Globals Double),
      (calcPifloat binary64 fuel g).map Prod.snd = (calcPifloat binary64 fuel g).map (fun _ => g)) ∧
    ∃ st1 st, mainLoops binary64 (532 + e) env g0 = some st1 ∧ st1.globals = g0 ∧
      List.countP Event.isStore st1.trace = 0 ∧
      mainFrom binary64 (532 + e) env g0 = some st ∧
      (List.filter Event.isCall st.trace).getLast? = some (Event.call st.globals.gd) ∧
      st.ld = some st.globals.gd ∧
      List.filter Event.isStore st.trace = [Event.store_gd st.globals.gd] ∧
      List.countP Event.isStore st.trace = 1 := by
  obtain ⟨h1, h2⟩ := main_run binary64 (532 + e) env (Double.fin false 0)
    (binary64_call e) g0
  obtain ⟨hf, _, _, hs⟩ := main_trace_counts env (Double.fin false 0)
    (binary64.div (List.foldl binary64.add (binary64.ofInt 0)
      ((List.range NITER).map (duration binary64 env))) (binary64.ofInt NITER)) _ rfl
  refine ⟨by simp only [main], ?_, _, _, h1, by simp only, ?_, h2, ?_, by simp only, ?_, ?_⟩
  · intro fuel g
    unfold calcPifloat
    cases PiState.loop binary64 fuel (PiState.init binary64) <;> simp
  · simp only
    exact rounds_stores env _ _
  · simp only
    rw [hf, calls_total]
    exact getLast_replicate_succ _ _
  · simp only
    exact hs
  · simp only
    rw [List.countP_eq_length_filter, hs]
    simp

end CDouble

/-! ## Theorems about `cosine_fraction` and `cosine` -/

namespace Sin

theorem call_m [LinearOrderedField T] (g : cosine_fraction T) : g.call.2.m = g.m + 1 := by
  simp only [cosine_fraction.call]
  split <;> rfl

theorem call_z [LinearOrderedField T] (g : cosine_fraction T) : g.call.2.z = g.z := by
  simp only [cosine_fraction.call]
  split <;> rfl

theorem after_m [LinearOrderedField T] (z : T) (i : Nat) :
    (cosine_fraction.after z i).m = (i : T) - 1 := by
  induction i with
  | zero => simp [cosine_fraction.after, cosine_fraction.new]
  | succ i ih =>
    rw [cosine_fraction.after, call_m, ih]
    push_cast
    ring

theorem after_z [LinearOrderedField T] (z : T) (i : Nat) :
    (cosine_fraction.after z i).z = z := by
  induction i with
  | zero => rfl
  | succ i ih => rw [cosine_fraction.after, call_z, ih]

theorem term_zero [LinearOrderedField T] (z : T) : term z 0 = (0, 1) := by
  simp [term, cosine_fraction.after, cosine_fraction.new, cosine_fraction.call]

theorem term_succ [LinearOrderedField T] (z : T) (i : Nat) :
    term z (i + 1) =
      ((z * z) / (((i : T) + 1) * (4 * ((i : T) + 1) - 2)),
       1 - (z * z) / (((i : T) + 1) * (4 * ((i : T) + 1) - 2))) := by
  have hm : (cosine_fraction.after z (i + 1)).m + 1 = (i : T) + 1 := by
    rw [after_m]
    push_cast
    ring
  have hne : (i : T) + 1 ≠ 0 := by positivity
  unfold term cosine_fraction.call
  simp only [hm, if_neg hne, after_z, cosine_fraction.divisor]
  rw [← sub_eq_add_neg]

theorem divisor_pos [LinearOrderedField T] (i : Nat) :
    (0 : T) < cosine_fraction.divisor ((i : T) + 1) := by
  have hi : (0 : T) ≤ i := Nat.cast_nonneg i
  unfold cosine_fraction.divisor
  have h1 : (0 : T) < (i : T) + 1 := by positivity
  have h2 : (0 : T) < 4 * ((i : T) + 1) + -2 := by linarith
  exact mul_pos h1 h2

/-- C3: call number `i + 1` of `operator()` returns `(0, 1)` for `i = 0` and
`(a, 1 - a)` with `a = (z*z) / (i * (4*i - 2))` for `i ≥ 1`; the counter `m` is
`-1` after construction, every call adds one to it, and after call number
`i + 1` it is `i`. -/
theorem operator_call_terms [LinearOrderedField T] (z : T) (i : Nat) :
    term z i =
      (if i = 0 then (0, 1)
       else ((z * z) / ((i : T) * (4 * (i : T) - 2)),
             1 - (z * z) / ((i : T) * (4 * (i : T) - 2)))) ∧
    (cosine_fraction.new z).m = -1 ∧
    (∀ g : cosine_fraction T, g.call.2.m = g.m + 1) ∧
    (cosine_fraction.after z (i + 1)).m = (i : T) := by
  refine ⟨?_, rfl, call_m, ?_⟩
  · cases i with
    | zero => simp [term_zero]
    | succ i =>
      rw [term_succ, if_neg (Nat.succ_ne_zero i)]
      push_cast
      rfl
  · rw [after_m]
    push_cast
    ring

/-- C7: in a call of `operator()` that evaluates the formula for `a` (the
incremented counter is not `0`), the counter is at least `1` and the divisor
`m * (4*m - 2)` of the formula is not zero; the first call, whose counter is
`0`, returns the fixed pair and writes nothing, without evaluating it. -/
theorem formula_divisor_nonzero [LinearOrderedField T] (z : T) (i : Nat)
    (h : (cosine_fraction.after z i).m + 1 ≠ 0) :
    1 ≤ (cosine_fraction.after z i).m + 1 ∧
    cosine_fraction.divisor ((cosine_fraction.after z i).m + 1) ≠ 0 ∧
    (cosine_fraction.after z i).call.1.1 =
      (z * z) / cosine_fraction.divisor ((cosine_fraction.after z i).m + 1) ∧
    (cosine_fraction.after z 0).m + 1 = 0 ∧
    (cosine_fraction.after z 0).call.1 = (0, 1) ∧
    (cosine_fraction.after z 0).printed = none := by
  have h0 : (cosine_fraction.after z 0).m + 1 = 0 := by
    simp [cosine_fraction.after, cosine_fraction.new]
  refine ⟨?_, ?_, ?_, h0, term_zero z, ?_⟩
  · cases i with
    | zero => exact absurd h0 h
    | succ i =>
      rw [after_m]
      push_cast
      have hi : (0 : T) ≤ i := Nat.cast_nonneg i
      linarith
  · cases i with
    | zero => exact absurd h0 h
    | succ i =>
      have hm : (cosine_fraction.after z (i + 1)).m + 1 = (i : T) + 1 := by
        rw [after_m]
        push_cast
        ring
      rw [hm]
      exact ne_of_gt (divisor_pos i)
  · unfold cosine_fraction.call
    simp only [if_neg h, after_z]
  · unfold cosine_fraction.printed
    simp only [h0, if_true]

/-- The second call for `z = 4` over the rationals evaluates the formula. -/
theorem formula_divisor_nonzero_witness :
    (cosine_fraction.after (4 : ℚ) 1).m + 1 ≠ 0 ∧
    cosine_fraction.divisor ((cosine_fraction.after (4 : ℚ) 1).m + 1) ≠ 0 :=
  ⟨by rw [after_m]; norm_num,
   (formula_divisor_nonzero (4 : ℚ) 1 (by rw [after_m]; norm_num)).2.1⟩

end Sin

namespace Sin

theorem term_sum [LinearOrderedField T] (z : T) (i : Nat) :
    (term z i).2 = 1 - (term z i).1 := by
  cases i with
  | zero => simp [term_zero]
  | succ i => rw [term_succ]

theorem convergents_h [LinearOrderedField T] (z : T) (i : Nat) :
    (convergents z i).h = 1 ∧ (convergents z i).hp = 1 := by
  induction i with
  | zero => simp [convergents, Convergents.start, term_zero]
  | succ i ih =>
    simp only [convergents, Convergents.next, ih.1, ih.2, term_sum z (i + 1)]
    constructor
    · ring
    · trivial

theorem cosTaylor_zero [LinearOrderedField T] (z : T) : cosTaylor z 0 = 1 := by
  simp [cosTaylor]

theorem cosTaylor_succ [LinearOrderedField T] (z : T) (i : Nat) :
    cosTaylor z (i + 1) =
      cosTaylor z i + (-1) ^ (i + 1) * z ^ (2 * (i + 1)) / ((2 * (i + 1)).factorial : T) := by
  simp only [cosTaylor]
  rw [Finset.sum_range_succ]

theorem factorial_step [LinearOrderedField T] (i : Nat) :
    ((2 * (i + 1)).factorial : T) =
      (((i : T) + 1) * (4 * ((i : T) + 1) - 2)) * ((2 * i).factorial : T) := by
  have h : 2 * (i + 1) = (2 * i + 1) + 1 := by ring
  rw [h, Nat.factorial_succ, Nat.factorial_succ]
  push_cast
  ring

theorem convergents_k [LinearOrderedField T] (z : T) (i : Nat) :
    (convergents z i).k = cosTaylor z i ∧
    (convergents z (i + 1)).k = cosTaylor z (i + 1) ∧
    (convergents z (i + 1)).kp = cosTaylor z i := by
  induction i with
  | zero =>
    refine ⟨by simp [convergents, Convergents.start, cosTaylor_zero], ?_,
      by simp [convergents, Convergents.start, Convergents.next, cosTaylor_zero]⟩
    simp only [convergents, Convergents.next, Convergents.start, term_succ, cosTaylor_succ,
      cosTaylor_zero]
    norm_num
    ring
  | succ i ih =>
    obtain ⟨_, h2, h3⟩ := ih
    refine ⟨h2, ?_, ?_⟩
    · have hk : (convergents z (i + 1 + 1)).k =
          (term z (i + 1 + 1)).2 * (convergents z (i + 1)).k +
            (term z (i + 1 + 1)).1 * (convergents z (i + 1)).kp := rfl
      rw [hk, h2, h3, term_succ, cosTaylor_succ z (i + 1), cosTaylor_succ z i]
      simp only
      rw [factorial_step (i + 1)]
      have hi : (0 : T) ≤ i := Nat.cast_nonneg i
      have hf : ((2 * (i + 1)).factorial : T) ≠ 0 := by positivity
      have hd : ((i : T) + 1 + 1) * (4 * ((i : T) + 1 + 1) - 2) ≠ 0 := by
        have h1 : (0 : T) < (i : T) + 1 + 1 := by positivity
        have h2 : (0 : T) < 4 * ((i : T) + 1 + 1) - 2 := by linarith
        exact ne_of_gt (mul_pos h1 h2)
      push_cast
      field_simp
      ring
    · show (convergents z (i + 1)).k = _
      exact h2

theorem convergents_value [LinearOrderedField T] (z : T) (i : Nat) :
    (convergents z i).value = 1 / cosTaylor z i := by
  rw [Convergents.value, (convergents_h z i).1, (convergents_k z i).1]

/-- C10: under the forward recurrence on the terms of `cosine_fraction(z)`,
in exact arithmetic, every numerator `h_i` is `1` (as `a_i + b_i = 1`) and
every denominator `k_i` is the Taylor polynomial of the cosine of degree `2i`
at `z`; the reciprocal of the convergent `h_i / k_i` is that polynomial, and a
convergent with a non-zero denominator is not `0`. -/
theorem convergents_are_taylor [LinearOrderedField T] (z : T) (i : Nat) :
    (term z (i + 1)).1 + (term z (i + 1)).2 = 1 ∧
    (convergents z i).h = 1 ∧
    (convergents z i).k =
      ∑ j in Finset.range (i + 1), (-1) ^ j * z ^ (2 * j) / ((2 * j).factorial : T) ∧
    1 / (convergents z i).value = cosTaylor z i ∧
    ((convergents z i).k = 0 ∨ (convergents z i).value ≠ 0) := by
  refine ⟨?_, (convergents_h z i).1, (convergents_k z i).1, ?_, ?_⟩
  · rw [term_sum]
    ring
  · rw [convergents_value, one_div_one_div]
  · by_cases hk : (convergents z i).k = 0
    · exact Or.inl hk
    · right
      rw [Convergents.value, (convergents_h z i).1]
      exact one_div_ne_zero hk

theorem term_at_zero [LinearOrderedField T] (i : Nat) : term (0 : T) i = (0, 1) := by
  cases i with
  | zero => exact term_zero 0
  | succ i =>
    rw [term_succ]
    simp

theorem convergents_at_zero [LinearOrderedField T] (i : Nat) :
    convergents (0 : T) i = ⟨1, 1, 1, if i = 0 then 0 else 1⟩ := by
  induction i with
  | zero => simp [convergents, Convergents.start, term_at_zero]
  | succ i ih =>
    simp only [convergents, ih, Convergents.next, term_at_zero]
    simp

theorem after_one_call [LinearOrderedField T] (z : T) (i : Nat) :
    (cosine_fraction.after z i).call.2 = cosine_fraction.after z (i + 1) := rfl

theorem cf_loop_unfold [LinearOrderedField T] (z eps : T) (fuel i : Nat) :
    cf_loop eps (fuel + 1) (cosine_fraction.after z (i + 1)) (convergents z i) =
      if |(convergents z (i + 1)).value - (convergents z i).value| < eps then
        some (convergents z (i + 1)).value
      else cf_loop eps fuel (cosine_fraction.after z (i + 1 + 1)) (convergents z (i + 1)) := rfl

theorem continued_fraction_b_eq [LinearOrderedField T] (z eps : T) (fuel : Nat) :
    continued_fraction_b (cosine_fraction.new z) eps fuel =
      cf_loop eps fuel (cosine_fraction.after z 1) (convergents z 0) := rfl

/-- C4: for `z = 0` every generated term is `(0, 1)`, every convergent is
`1`, and `cosine(0)` returns `1` for every positive tolerance as soon as one
term after the leading one may be taken. -/
theorem cosine_zero [LinearOrderedField T] (eps : T) (heps : 0 < eps) (fuel : Nat) :
    (∀ i, term (0 : T) i = (0, 1)) ∧
    (∀ i, (convergents (0 : T) i).value = 1) ∧
    continued_fraction_b (cosine_fraction.new (0 : T)) eps (fuel + 1) = some 1 ∧
    cosine (0 : T) eps (fuel + 1) = some 1 := by
  have hv : ∀ i, (convergents (0 : T) i).value = 1 := by
    intro i
    rw [convergents_at_zero]
    simp [Convergents.value]
  have hb : continued_fraction_b (cosine_fraction.new (0 : T)) eps (fuel + 1) = some 1 := by
    rw [continued_fraction_b_eq, cf_loop_unfold, hv, hv]
    simp [heps]
  refine ⟨term_at_zero, hv, hb, ?_⟩
  unfold cosine
  rw [hb]
  simp

/-- The value of `cosine 0` over the rationals with tolerance `2^-52`. -/
theorem cosine_zero_witness :
    (0 : ℚ) < 1 / 2 ^ 52 ∧ cosine (0 : ℚ) (1 / 2 ^ 52) 1 = some 1 :=
  ⟨by norm_num, (cosine_zero (1 / 2 ^ 52 : ℚ) (by norm_num) 0).2.2.2⟩

theorem term_neg [LinearOrderedField T] (z : T) (i : Nat) : term (-z) i = term z i := by
  cases i with
  | zero => rw [term_zero, term_zero]
  | succ i => rw [term_succ, term_succ, neg_mul_neg]

theorem convergents_neg [LinearOrderedField T] (z : T) (i : Nat) :
    convergents (-z) i = convergents z i := by
  induction i with
  | zero => simp only [convergents, term_neg]
  | succ i ih => simp only [convergents, term_neg, ih]

theorem cf_loop_neg [LinearOrderedField T] (z eps : T) (fuel : Nat) :
    ∀ i, cf_loop eps fuel (cosine_fraction.after (-z) (i + 1)) (convergents (-z) i) =
      cf_loop eps fuel (cosine_fraction.after z (i + 1)) (convergents z i) := by
  induction fuel with
  | zero =>
    intro i
    rfl
  | succ fuel ih =>
    intro i
    rw [cf_loop_unfold, cf_loop_unfold, ih (i + 1), convergents_neg, convergents_neg]

/-- C13: the terms generated for `-z` are, call by call, those generated for
`z` (the argument enters only through `z*z`), so the convergents agree and
`cosine(-z) = cosine(z)`. -/
theorem cosine_even [LinearOrderedField T] (z eps : T) (fuel : Nat) :
    (∀ i, term (-z) i = term z i) ∧
    (∀ g : cosine_fraction T, g.call.1.1 =
      (if g.m + 1 = 0 then 0 else (g.z * g.z) / cosine_fraction.divisor (g.m + 1))) ∧
    (∀ i, convergents (-z) i = convergents z i) ∧
    cosine (-z) eps fuel = cosine z eps fuel := by
  refine ⟨term_neg z, ?_, convergents_neg z, ?_⟩
  · intro g
    simp only [cosine_fraction.call]
    split <;> rfl
  · unfold cosine
    rw [continued_fraction_b_eq, continued_fraction_b_eq, cf_loop_neg]

end Sin

namespace Sin

end Sin

namespace Sin

end Sin

namespace Sin

end Sin

namespace Sin

end Sin

namespace Sin

end Sin
